import Mathlib

/-!
Verification development for the astrbot_plugin_monitor plugin (src/main.py).

The Python source is shallowly embedded below.  Message contents,
CQHTTP segments, the monitor registry, the forward-node builder, the
batch audit loop and the live relay handler are translated into
executable Lean definitions; the theorems at the end of the file settle
the specification claims against these definitions.
-/

set_option maxHeartbeats 1000000
set_option maxRecDepth 8192

/-- Python truthiness of an optional string (None and the empty string are falsy). -/
def strTruthy : Option String → Bool
  | none => false
  | some s => s != ""

/-- Python `a or b` on optional strings (main.py line 60: `data.get("url") or data.get("file")`). -/
def pyStrOr (a b : Option String) : Option String :=
  if strTruthy a then a else b

/-- Python truthiness of an optional integer (None and 0 are falsy; main.py line 92: `if user_id`). -/
def natTruthy : Option Nat → Bool
  | none => false
  | some n => n != 0

/-- The `data` dict of a CQHTTP message segment; only the keys the plugin
reads or writes are modelled (absent key = `none`). -/
structure SegData where
  url : Option String := none
  file : Option String := none
  text : Option String := none
deriving DecidableEq

/-- One element of message content: either a dict segment of the CQHTTP wire
format (with a `type` tag and a `data` dict), or a platform component object
(such as a `Reply` component), which main.py only inspects via
`isinstance(seg, Reply)` and `.message_str`. -/
inductive Segment
  | dict (ty : String) (data : SegData)
  | obj (isReply : Bool) (message_str : String)
deriving DecidableEq

/-- Raw message content as it reaches the plugin: either a single string
(possibly holding CQ codes) or a list of segments (main.py lines 53-68). -/
inductive RawContent
  | str (s : String)
  | list (l : List Segment)
deriving DecidableEq

/-- Literal prefix matching on character lists. -/
def matchesHead : List Char → List Char → Bool
  | [], _ => true
  | _ :: _, [] => false
  | a :: as, b :: bs => a == b && matchesHead as bs

/-- The literal head of a CQ image code, from the regex at main.py line 66. -/
def cqHead : List Char := "[CQ:image,file=".data

/-- Scanner implementing Python `re.findall(r"\[CQ:image,file=([^\]]+)\]", s)`
(main.py lines 66-67): leftmost non-overlapping matches; at each position the
literal head must match, then at least one non-`]` character is captured up to
the next `]`.  The fuel argument is the length of the scanned list. -/
def cqFindallAux : Nat → List Char → List String
  | 0, _ => []
  | _ + 1, [] => []
  | fuel + 1, c :: cs =>
    if matchesHead cqHead (c :: cs) then
      let rest := (c :: cs).drop cqHead.length
      let cap := rest.takeWhile (fun ch => ch != ']')
      match rest.dropWhile (fun ch => ch != ']') with
      | [] => cqFindallAux fuel cs
      | _ :: rest2 =>
        if cap.isEmpty then cqFindallAux fuel cs
        else String.mk cap :: cqFindallAux fuel rest2
    else cqFindallAux fuel cs

/-- All CQ image codes captured from a string. -/
def cqFindall (l : List Char) : List String := cqFindallAux l.length l

/-- The image URL a single dict segment contributes, if any
(main.py lines 57-62): the segment must be a dict whose type is `image`,
`data.get("url") or data.get("file")` must be truthy. -/
def imgUrlOf : Segment → Option String
  | Segment.dict ty d =>
    if ty = "image" then
      match pyStrOr d.url d.file with
      | some u => if u = "" then none else some u
      | none => none
    else none
  | Segment.obj _ _ => none

/-- MonitorPlugin.extract_image_urls (main.py lines 41-73), applied to the
value of the `message` field: list contents are scanned segment by segment,
string contents are scanned for CQ image codes. -/
def extract_image_urls : RawContent → List String
  | RawContent.list l => l.filterMap imgUrlOf
  | RawContent.str s => cqFindall s.data

/-- Python `content.strip()` truthiness: the string has a non-whitespace character. -/
def hasNonWs (s : String) : Bool := s.data.any (fun c => !c.isWhitespace)

/-- A canonical text segment as built at main.py lines 107-110. -/
def textSeg (s : String) : Segment := Segment.dict "text" { text := some s }

/-- A canonical image segment as built at main.py lines 114-117. -/
def imageSeg (u : String) : Segment := Segment.dict "image" { url := some u }

/-- The content normalization step of MonitorPlugin.build_forward_nodes
(main.py lines 97-119): if image URLs are extracted, the content is replaced
by a message chain holding the text (only when the original content is a
non-blank string) followed by the image segments; otherwise the content is
left untouched. -/
def normalize_content (content : RawContent) : RawContent :=
  let image_urls := extract_image_urls content
  if image_urls.isEmpty then content
  else
    RawContent.list
      ((match content with
        | RawContent.str s => if hasNonWs s then [textSeg s] else []
        | RawContent.list _ => []) ++ image_urls.map imageSeg)

/-- The `sender` dict of a raw history record (absent key = `none`). -/
structure SenderDict where
  user_id : Option Nat := none
  nickname : Option String := none
deriving DecidableEq

/-- A raw message record as consumed by build_forward_nodes; `none` models an
absent `sender` or `message` key (main.py line 87). -/
structure Msg where
  sender : Option SenderDict := none
  message : Option RawContent := none
deriving DecidableEq

/-- The data of one forward node (main.py lines 122-129); the constant
`"type": "node"` tag is left implicit. -/
structure Node where
  name : String
  uin : Nat
  content : RawContent
deriving DecidableEq

/-- MonitorPlugin.build_forward_nodes (main.py lines 75-136): records missing
`sender` or `message` are skipped; with a truthy user_id filter, records whose
sender id differs are skipped; contents are normalized when include_images is
set; each emitted node carries the sender nickname (default 未知用户), the
sender id (default 0) and the (possibly normalized) content. -/
def build_forward_nodes (messages : List Msg) (user_id : Option Nat)
    (include_images : Bool) : List Node :=
  messages.filterMap fun msg =>
    match msg.sender, msg.message with
    | some sender, some content =>
      if natTruthy user_id && (sender.user_id != user_id) then none
      else
        let content2 := if include_images then normalize_content content else content
        some { name := sender.nickname.getD "未知用户"
             , uin := sender.user_id.getD 0
             , content := content2 }
    | _, _ => none

/-- Numeric value of a run of decimal digit characters. -/
def digitsToNat (l : List Char) : Nat :=
  l.foldl (fun n c => n * 10 + (c.toNat - 48)) 0

/-- Scanner implementing Python `re.findall(r"\d{6,10}", s)` (main.py
line 24): at each position, if at least 6 consecutive digits start there, the
match greedily consumes up to 10 of them and scanning resumes after the match;
otherwise scanning advances one character.  The fuel argument is the length of
the scanned list. -/
def findallAux : Nat → List Char → List (List Char)
  | 0, _ => []
  | _ + 1, [] => []
  | fuel + 1, c :: cs =>
    let run := (c :: cs).takeWhile Char.isDigit
    if 6 ≤ run.length then
      (c :: cs).take (min run.length 10) :: findallAux fuel ((c :: cs).drop (min run.length 10))
    else
      findallAux fuel cs

/-- All matches of the 6-to-10-digit pattern in a character list. -/
def findall6to10 (l : List Char) : List (List Char) := findallAux l.length l

/-- MonitorPlugin.extract_group_ids (main.py lines 21-27): every regex match,
converted to an integer (the int conversion of a digit run never fails, so the
except branch is dead). -/
def extract_group_ids (text : String) : List Nat :=
  (findall6to10 text.data).map digitsToNat

/-- An inbound message event, restricted to the fields main.py reads:
source group id (get_group_id), the sender object (`some` models a dict as
returned by get_sender, `none` a non-dict object), the numeric sender id
(get_sender_id), the message component list (get_messages) and the plain text
(message_str). -/
structure Event where
  group_id : Nat
  sender : Option SenderDict
  sender_id : Nat
  messages : List Segment
  message_str : String
deriving DecidableEq

/-- Python `isinstance(seg, Reply)` (main.py line 33). -/
def isReplySeg : Segment → Bool
  | Segment.obj r _ => r
  | _ => false

/-- The `.message_str` of a component (only read on Reply components). -/
def segMessageStr : Segment → String
  | Segment.obj _ s => s
  | _ => ""

/-- main.py lines 32-35: the message_str of the first Reply component of the
event, or the empty string when there is none. -/
def refTextOf (e : Event) : String :=
  match e.messages.find? isReplySeg with
  | some seg => segMessageStr seg
  | none => ""

/-- MonitorPlugin.get_group_ids (main.py lines 29-39):
`extract_group_ids(ref_text or event.message_str)` — the quoted text is used
whenever it is a non-empty string, else the event own text. -/
def get_group_ids (e : Event) : List Nat :=
  extract_group_ids (if refTextOf e = "" then e.message_str else refTextOf e)

/-- Whether the event is itself a reply-quote (it carries a Reply component). -/
def isReplyQuote (e : Event) : Bool := e.messages.any isReplySeg

/-- Python `str.split()` with no separator: split on whitespace runs,
discarding empty tokens.  The accumulator holds the current token reversed. -/
def splitWsAux : List Char → List Char → List String
  | [], acc => if acc.isEmpty then [] else [String.mk acc.reverse]
  | c :: cs, acc =>
    if c.isWhitespace then
      if acc.isEmpty then splitWsAux cs []
      else String.mk acc.reverse :: splitWsAux cs []
    else splitWsAux cs (c :: acc)

/-- Python `event.message_str.split()` (main.py line 148). -/
def pySplit (s : String) : List String := splitWsAux s.data []

/-- Python `str.isdigit()` restricted to ASCII decimal digits: non-empty and
all digits. -/
def pyIsDigit (s : String) : Bool := !s.data.isEmpty && s.data.all Char.isDigit

/-- The count parsing of MonitorPlugin.check_messages (main.py lines 148-151):
the first whitespace-separated token that is all digits and whose value is
below 1000, defaulting to 20. -/
def parse_count (message_str : String) : Nat :=
  match (pySplit message_str).find?
      (fun arg => pyIsDigit arg && decide (digitsToNat arg.data < 1000)) with
  | some arg => digitsToNat arg.data
  | none => 20

/-- The monitor registry `self.monitor_map` (main.py line 18): a Python dict
from observer (监听群) to monitored target (被监听群), modelled as an
insertion-ordered association list with unique keys. -/
abbrev Registry := List (Nat × Nat)

/-- `self.monitor_map[monitor_group] = target_group` (main.py line 240):
overwrite in place when the key exists, else append. -/
def register_monitor (m : Registry) (observer target : Nat) : Registry :=
  if observer ∈ m.map Prod.fst then
    m.map fun p => if p.1 = observer then (observer, target) else p
  else m ++ [(observer, target)]

/-- `del self.monitor_map[monitor_group]` (main.py line 257). -/
def unregister_monitor (m : Registry) (observer : Nat) : Registry :=
  m.filter fun p => p.1 != observer

/-- Python dict lookup `self.monitor_map[observer]`. -/
def lookup_monitor (m : Registry) (observer : Nat) : Option Nat :=
  (m.find? fun p => p.1 == observer).map Prod.snd

/-- The spec operation `targetsOf`: every observer currently mapped to the
given source group, in registry order — the reverse lookup the live relay
loop performs (main.py lines 280-281). -/
def targets_of (m : Registry) (target : Nat) : List Nat :=
  (m.filter fun p => p.2 == target).map Prod.fst

/-- The msg_data dict built by on_group_message (main.py lines 285-291). -/
def msg_data_of (e : Event) : Msg :=
  { sender := some
      { user_id := match e.sender with
          | some d => d.user_id
          | none => some e.sender_id
      , nickname := some (match e.sender with
          | some d => d.nickname.getD "未知用户"
          | none => "未知用户") }
  , message := some (RawContent.list e.messages) }

/-- An outbound delivery: either a forward bundle
(bot.send_group_forward_msg) or a plain text message (bot.send_group_msg /
plain_result, used elsewhere in main.py). -/
inductive Delivery
  | forward (group_id : Nat) (nodes : List Node)
  | plain (group_id : Nat) (text : String)
deriving DecidableEq

/-- MonitorPlugin.on_group_message (main.py lines 270-302): for every registry
entry whose target equals the event source group, forward nodes are built from
the live event and, when non-empty, a forward bundle is sent to the observer
group.  The result lists each attempted send as (observer, nodes). -/
def on_group_message_sends (m : Registry) (e : Event) : List (Nat × List Node) :=
  m.filterMap fun p =>
    if e.group_id == p.2 then
      if (build_forward_nodes [msg_data_of e] none true).isEmpty then none
      else some (p.1, build_forward_nodes [msg_data_of e] none true)
    else none

/-- The deliveries of the live relay, as Delivery values. -/
def on_group_message_outputs (m : Registry) (e : Event) : List Delivery :=
  (on_group_message_sends m e).map fun p => Delivery.forward p.1 p.2

/-- The observer groups the live relay delivers to. -/
def on_group_message_deliveries (m : Registry) (e : Event) : List Nat :=
  (on_group_message_sends m e).map Prod.fst

/-- The check_single task of MonitorPlugin.check_messages (main.py lines
161-185) for one source group: fetch the history (none = the fetch raised),
build nodes, and deliver the bundle when non-empty and the send succeeds.
Every exception is caught inside the task, so the outcome is just the
delivered bundle, if any. -/
def check_single (fetch : Nat → Option (List Msg)) (send_ok : Nat → Bool)
    (user_id : Option Nat) (gid : Nat) : Option (List Node) :=
  match fetch gid with
  | none => none
  | some msgs =>
    let nodes := build_forward_nodes msgs user_id true
    if nodes.isEmpty then none
    else if send_ok gid then some nodes else none

/-- The batch audit of MonitorPlugin.check_messages (main.py lines 161-188):
all per-group tasks are gathered, then the constant completion message
抽查完成 is reported to the user. -/
def check_messages (fetch : Nat → Option (List Msg)) (send_ok : Nat → Bool)
    (user_id : Option Nat) (group_ids : List Nat) :
    List (Option (List Node)) × String :=
  (group_ids.map (check_single fetch send_ok user_id), "抽查完成")

/-- Modelled from the specification wording: the maximal runs of consecutive
decimal digits of a character list, in left-to-right order. -/
def maxDigitRuns : List Char → List (List Char)
  | [] => []
  | c :: cs =>
    if h : c.isDigit then
      (c :: cs).takeWhile Char.isDigit :: maxDigitRuns ((c :: cs).dropWhile Char.isDigit)
    else maxDigitRuns cs
termination_by l => l.length
decreasing_by
  · simp only [List.dropWhile_cons, h, if_true]
    exact Nat.lt_succ_of_le (List.dropWhile_sublist Char.isDigit).length_le
  · simp

/-- Modelled from the specification wording (as amended): the greedy chunks a
single maximal digit run contributes — while at least 6 digits remain, take up
to 10 of them. -/
def greedyChunks (r : List Char) : List (List Char) :=
  if 6 ≤ r.length then r.take 10 :: greedyChunks (r.drop 10) else []
termination_by r.length
decreasing_by
  rename_i h
  simp only [List.length_drop]
  omega

/-- Concrete live event used in the scenario claims: sender Alice, text
hello, not a reply, source group 222. -/
def eAlice : Event :=
  { group_id := 222
  , sender := some { user_id := some 10, nickname := some "Alice" }
  , sender_id := 10
  , messages := [Segment.obj false "hello"]
  , message_str := "hello" }

/-- Concrete live event that is itself a reply-quote with empty text, source
group 222. -/
def eReply : Event :=
  { group_id := 222
  , sender := none
  , sender_id := 5
  , messages := [Segment.obj true ""]
  , message_str := "" }

/-- Concrete event quoting a message whose text has no 6-10 digit run while
the event own text does. -/
def eQuoteNoDigits : Event :=
  { group_id := 1
  , sender := none
  , sender_id := 0
  , messages := [Segment.obj true "hello"]
  , message_str := "123456" }

/-- A well-formed history record (sender and message present, non-empty text). -/
def msgHello : Msg :=
  { sender := some { user_id := some 1, nickname := some "n" }
  , message := some (RawContent.str "hi") }

/-! ## Registry lemmas -/

theorem mem_targets_of {m : Registry} {o t : Nat} :
    o ∈ targets_of m t ↔ (o, t) ∈ m := by
  unfold targets_of
  constructor
  · intro h
    rcases List.mem_map.mp h with ⟨⟨a, b⟩, hp, rfl⟩
    rcases List.mem_filter.mp hp with ⟨hm, hc⟩
    have hb : b = t := by simpa using hc
    subst hb
    exact hm
  · intro h
    exact List.mem_map.mpr ⟨(o, t), List.mem_filter.mpr ⟨h, by simp⟩, rfl⟩

theorem register_mem_self (m : Registry) (o t : Nat) :
    (o, t) ∈ register_monitor m o t := by
  unfold register_monitor
  by_cases h : o ∈ m.map Prod.fst
  · rw [if_pos h]
    rcases List.mem_map.mp h with ⟨p, hp, hpo⟩
    exact List.mem_map.mpr ⟨p, hp, by simp [hpo]⟩
  · rw [if_neg h]
    exact List.mem_append.mpr (Or.inr (by simp))

theorem register_key_eq {m : Registry} {o t : Nat} {p : Nat × Nat}
    (hp : p ∈ register_monitor m o t) (ho : p.1 = o) : p = (o, t) := by
  unfold register_monitor at hp
  by_cases h : o ∈ m.map Prod.fst
  · rw [if_pos h] at hp
    rcases List.mem_map.mp hp with ⟨q, hq, rfl⟩
    by_cases hq1 : q.1 = o
    · simp [hq1]
    · rw [if_neg hq1] at ho ⊢
      exact absurd ho hq1
  · rw [if_neg h] at hp
    rcases List.mem_append.mp hp with h1 | h1
    · exact absurd (List.mem_map.mpr ⟨p, h1, ho⟩) h
    · simpa using h1

theorem lookup_iff_mem {m : Registry} (hnd : (m.map Prod.fst).Nodup) {o t : Nat} :
    lookup_monitor m o = some t ↔ (o, t) ∈ m := by
  induction m with
  | nil => simp [lookup_monitor]
  | cons p m ih =>
    obtain ⟨a, b⟩ := p
    rw [List.map_cons, List.nodup_cons] at hnd
    by_cases h1 : a = o
    · subst h1
      have hl : lookup_monitor ((a, b) :: m) a = some b := by
        unfold lookup_monitor
        rw [List.find?_cons_of_pos _ (by simp)]
        rfl
      rw [hl]
      constructor
      · intro he
        injection he with he
        subst he
        exact List.mem_cons_self _ _
      · intro he
        rcases List.mem_cons.mp he with he | he
        · injection he with h2 h3
          rw [h3]
        · exact absurd (List.mem_map.mpr ⟨(a, t), he, rfl⟩) hnd.1
    · have hl : lookup_monitor ((a, b) :: m) o = lookup_monitor m o := by
        unfold lookup_monitor
        rw [List.find?_cons_of_neg _ (by simpa using h1)]
      rw [hl, ih hnd.2, List.mem_cons]
      constructor
      · exact Or.inr
      · rintro (he | he)
        · exact absurd (congrArg Prod.fst he).symm h1
        · exact he

/-! ## Live relay lemmas -/

theorem build_live_nodes (e : Event) :
    (build_forward_nodes [msg_data_of e] none true).isEmpty = false := rfl

theorem live_nodes_length (e : Event) :
    (build_forward_nodes [msg_data_of e] none true).length = 1 := rfl

theorem filterMap_if_eq_map_filter {α β : Type} (c : α → Bool) (g : α → β) (l : List α) :
    (l.filterMap fun a => if c a then some (g a) else none) = (l.filter c).map g := by
  induction l with
  | nil => rfl
  | cons a l ih =>
    rw [List.filterMap_cons, List.filter_cons]
    cases h : c a with
    | true => simp [ih]
    | false => simp [ih]

theorem sends_eq (m : Registry) (e : Event) :
    on_group_message_sends m e
      = (m.filter fun p => e.group_id == p.2).map
          (fun p => (p.1, build_forward_nodes [msg_data_of e] none true)) := by
  unfold on_group_message_sends
  rw [← filterMap_if_eq_map_filter]
  congr 1

theorem deliveries_eq (m : Registry) (e : Event) :
    on_group_message_deliveries m e
      = (m.filter fun p => e.group_id == p.2).map Prod.fst := by
  unfold on_group_message_deliveries
  rw [sends_eq, List.map_map]
  rfl

theorem mem_deliveries (m : Registry) (e : Event) (o : Nat) :
    o ∈ on_group_message_deliveries m e ↔ (o, e.group_id) ∈ m := by
  rw [deliveries_eq]
  constructor
  · intro h
    rcases List.mem_map.mp h with ⟨⟨a, b⟩, hp, rfl⟩
    rcases List.mem_filter.mp hp with ⟨hm, hc⟩
    have hb : e.group_id = b := by simpa using hc
    rw [hb]
    exact hm
  · intro h
    exact List.mem_map.mpr ⟨(o, e.group_id), List.mem_filter.mpr ⟨h, by simp⟩, rfl⟩

theorem sends_mem_eq (m : Registry) (e : Event) (q : Nat × List Node)
    (hq : q ∈ on_group_message_sends m e) :
    q.2 = build_forward_nodes [msg_data_of e] none true := by
  unfold on_group_message_sends at hq
  rcases List.mem_filterMap.mp hq with ⟨p, _, hfp⟩
  by_cases h : (e.group_id == p.2) = true
  · rw [if_pos h, if_neg (by rw [build_live_nodes e]; exact Bool.false_ne_true)] at hfp
    have h2 := Option.some.inj hfp
    rw [← h2]
  · rw [if_neg h] at hfp
    exact absurd hfp (by simp)

/-! ## Claim C1 -/

/-- C1: live fan-out is exact.  For every registry whose keys are distinct
(the dict invariant) and every inbound live event, the relay attempts a
delivery to observer group o iff the registry maps o to the source group of
the event. -/
theorem live_fanout_exact (m : Registry) (hnd : (m.map Prod.fst).Nodup)
    (e : Event) (o : Nat) :
    o ∈ on_group_message_deliveries m e ↔ lookup_monitor m o = some e.group_id := by
  rw [mem_deliveries, lookup_iff_mem hnd]

/-- Witness for live_fanout_exact: the registry obtained by register(111,222)
then register(333,222), the live event from group 222, observer 111. -/
theorem live_fanout_exact_witness :
    111 ∈ on_group_message_deliveries
        (register_monitor (register_monitor [] 111 222) 333 222) eAlice
      ↔ lookup_monitor (register_monitor (register_monitor [] 111 222) 333 222) 111
          = some eAlice.group_id :=
  live_fanout_exact _ (by decide) eAlice 111

/-! ## Claim C2 -/

/-- C2: the registry maps each observer to at most one target.  After
register(o,t), targetsOf(t) includes o; after re-registering o with a
different t2, targetsOf(t) excludes o and targetsOf(t2) includes o. -/
theorem register_overwrites (m : Registry) (o t t2 : Nat) (hne : t2 ≠ t) :
    o ∈ targets_of (register_monitor m o t) t
    ∧ o ∉ targets_of (register_monitor (register_monitor m o t) o t2) t
    ∧ o ∈ targets_of (register_monitor (register_monitor m o t) o t2) t2 := by
  refine ⟨mem_targets_of.mpr (register_mem_self m o t), ?_,
    mem_targets_of.mpr (register_mem_self _ o t2)⟩
  intro hmem
  have h := register_key_eq (mem_targets_of.mp hmem) rfl
  exact hne (congrArg Prod.snd h).symm

/-- Witness for register_overwrites on the empty registry with o=111, t=222,
t2=333. -/
theorem register_overwrites_witness :
    111 ∈ targets_of (register_monitor [] 111 222) 222
    ∧ 111 ∉ targets_of (register_monitor (register_monitor [] 111 222) 111 333) 222
    ∧ 111 ∈ targets_of (register_monitor (register_monitor [] 111 222) 111 333) 333 :=
  register_overwrites [] 111 222 333 (by decide)

/-! ## Claim C3 -/

/-- C3 counterexample: a live event that is itself a reply-quote and has empty
textual content, arriving from monitored group 222, is still relayed to the
observer (the handler checks neither the Reply component nor the text). -/
theorem relay_reply_quote_cex :
    isReplyQuote eReply = true
    ∧ eReply.message_str = ""
    ∧ on_group_message_deliveries [(111, 222)] eReply = [111]
    ∧ on_group_message_deliveries [(111, 222)] eReply ≠ [] := by decide

/-- C3 (amended): the live relay applies no reply-quote or empty-text
filtering — the set of observers delivered to depends only on the source
group id of the event, never on its components or text. -/
theorem relay_ignores_event_content (m : Registry) (e e' : Event)
    (h : e.group_id = e'.group_id) :
    on_group_message_deliveries m e = on_group_message_deliveries m e' := by
  rw [deliveries_eq, deliveries_eq, h]

/-- Witness for relay_ignores_event_content: a reply-quote event with empty
text and a plain text event from the same source group produce the same
delivery list. -/
theorem relay_ignores_event_content_witness :
    on_group_message_deliveries [(111, 222)] eReply
      = on_group_message_deliveries [(111, 222)] eAlice :=
  relay_ignores_event_content [(111, 222)] eReply eAlice rfl

/-! ## Claim C4 -/

/-- C4 counterexample: with registry 111 -> 222, the non-reply live event from
group 222 with sender Alice and text hello produces a forward-node bundle sent
to 111, not the formatted plain text message the claim describes. -/
theorem relay_not_plain_text_cex :
    on_group_message_outputs [(111, 222)] eAlice
      = [Delivery.forward 111 [⟨"Alice", 10, RawContent.list [Segment.obj false "hello"]⟩]]
    ∧ on_group_message_outputs [(111, 222)] eAlice
      ≠ [Delivery.plain 111 "[来自群222的Alice]\nhello"] := by decide

/-- C4 (amended): for every matched live event the relay sends each observer a
single forward bundle holding exactly one node built from the event (sender
display name, sender id, the event message segments), not a formatted plain
text message. -/
theorem relay_sends_single_node_bundle (m : Registry) (e : Event) (d : Delivery)
    (hd : d ∈ on_group_message_outputs m e) :
    ∃ o, d = Delivery.forward o (build_forward_nodes [msg_data_of e] none true)
      ∧ (build_forward_nodes [msg_data_of e] none true).length = 1 := by
  unfold on_group_message_outputs at hd
  rcases List.mem_map.mp hd with ⟨q, hq, rfl⟩
  exact ⟨q.1, by rw [sends_mem_eq m e q hq], live_nodes_length e⟩

/-- Witness for relay_sends_single_node_bundle at the scenario registry and
event. -/
theorem relay_sends_single_node_bundle_witness :
    ∃ o, Delivery.forward 111 [⟨"Alice", 10, RawContent.list [Segment.obj false "hello"]⟩]
        = Delivery.forward o (build_forward_nodes [msg_data_of eAlice] none true)
      ∧ (build_forward_nodes [msg_data_of eAlice] none true).length = 1 :=
  relay_sends_single_node_bundle [(111, 222)] eAlice _ (by decide)

/-! ## Claim C10 -/

/-- C10: a sender filter of 0 disables filtering entirely — build_forward_nodes
with user_id 0 returns exactly the same node list as with no user_id, for
every record list (0 is falsy in Python, like None). -/
theorem sender_filter_zero_disabled (messages : List Msg) (include_images : Bool) :
    build_forward_nodes messages (some 0) include_images
      = build_forward_nodes messages none include_images := rfl

/-! ## Claim C5 -/

/-- C5 counterexample: in the batch audit over three groups where fetching the
second fails, the bundles for the first and third are still delivered, but the
user report is the constant completion message 抽查完成 — identical to the
report of a fully successful run — so no aggregate 2/3 success count is
reported. -/
theorem check_report_constant_cex :
    (check_messages (fun g => if g = 100002 then none else some [msgHello])
        (fun _ => true) none [100001, 100002, 100003]).1
      ≠ (check_messages (fun _ => some [msgHello])
        (fun _ => true) none [100001, 100002, 100003]).1
    ∧ (check_messages (fun g => if g = 100002 then none else some [msgHello])
        (fun _ => true) none [100001, 100002, 100003]).2
      = (check_messages (fun _ => some [msgHello])
        (fun _ => true) none [100001, 100002, 100003]).2
    ∧ (check_messages (fun g => if g = 100002 then none else some [msgHello])
        (fun _ => true) none [100001, 100002, 100003]).2 = "抽查完成" := by decide

/-- C5 (amended): per-group isolation holds — a fetch or delivery failure of
one group b does not affect the outcome of any other group, the audit produces
an outcome for every requested group before returning, and the user report is
the fixed string 抽查完成 (no aggregate counts). -/
theorem check_messages_isolated (fetch fetch' : Nat → Option (List Msg))
    (send_ok send_ok' : Nat → Bool) (user_id : Option Nat) (gids : List Nat)
    (b : Nat) (hf : ∀ g, g ≠ b → fetch g = fetch' g)
    (hs : ∀ g, g ≠ b → send_ok g = send_ok' g) :
    (check_messages fetch send_ok user_id gids).1.length = gids.length
    ∧ (∀ (i g : Nat), gids[i]? = some g → g ≠ b →
        (check_messages fetch send_ok user_id gids).1[i]?
          = (check_messages fetch' send_ok' user_id gids).1[i]?)
    ∧ (check_messages fetch send_ok user_id gids).2 = "抽查完成" := by
  refine ⟨by simp [check_messages], ?_, rfl⟩
  intro i g hg hgb
  unfold check_messages
  rw [List.getElem?_map, List.getElem?_map, hg]
  show some (check_single fetch send_ok user_id g) = some (check_single fetch' send_ok' user_id g)
  unfold check_single
  rw [hf g hgb, hs g hgb]

/-- Witness for check_messages_isolated: groups A,B,C with B failing to fetch. -/
theorem check_messages_isolated_witness :
    (check_messages (fun g => if g = 100002 then none else some [msgHello])
        (fun _ => true) none [100001, 100002, 100003]).1.length
      = [100001, 100002, 100003].length
    ∧ (∀ (i g : Nat), ([100001, 100002, 100003] : List Nat)[i]? = some g → g ≠ 100002 →
        (check_messages (fun g => if g = 100002 then none else some [msgHello])
            (fun _ => true) none [100001, 100002, 100003]).1[i]?
          = (check_messages (fun _ => some [msgHello])
            (fun _ => true) none [100001, 100002, 100003]).1[i]?)
    ∧ (check_messages (fun g => if g = 100002 then none else some [msgHello])
        (fun _ => true) none [100001, 100002, 100003]).2 = "抽查完成" :=
  check_messages_isolated _ _ _ _ none _ 100002
    (fun g hg => if_neg hg) (fun _ _ => rfl)

/-! ## Claim C6 -/

/-- C6 counterexample: the command text 抽查 555 50 parses count 555, not 50 —
the group token itself is all digits and below 1000, so it is selected as the
count. -/
theorem parse_count_cex :
    parse_count "抽查 555 50" = 555 ∧ parse_count "抽查 555 50" ≠ 50 := by decide

/-- C6 (amended): the count is the first whitespace-separated all-digit token
whose value is below 1000, with default 20 when no such token exists: 抽查
alone yields 20, the token 1200 is rejected in favor of 20, and 抽查 555 50
yields 555. -/
theorem parse_count_first_small_token :
    parse_count "抽查" = 20
    ∧ parse_count "抽查 1200" = 20
    ∧ parse_count "抽查 555 50" = 555
    ∧ ∀ s, ((pySplit s).all fun a =>
          !(pyIsDigit a && decide (digitsToNat a.data < 1000))) = true
        → parse_count s = 20 := by
  refine ⟨by decide, by decide, by decide, ?_⟩
  intro s hs
  unfold parse_count
  rw [List.find?_eq_none.mpr (fun x hx hc => by
    have h := List.all_eq_true.mp hs x hx
    rw [hc] at h
    simp at h)]

/-- Witness for the universally quantified part of parse_count_first_small_token. -/
theorem parse_count_first_small_token_witness : parse_count "zz" = 20 :=
  parse_count_first_small_token.2.2.2 "zz" (by decide)

/-! ## Claim C7 -/

/-- C7 counterexample: the event quotes a message whose text hello has no
6-10 digit run, while its own text is 123456; get_group_ids returns the empty
list — there is no fallback to the own text once a non-empty quoted text is
present. -/
theorem ref_no_fallback_cex :
    refTextOf eQuoteNoDigits = "hello"
    ∧ extract_group_ids (refTextOf eQuoteNoDigits) = []
    ∧ get_group_ids eQuoteNoDigits = []
    ∧ extract_group_ids eQuoteNoDigits.message_str = [123456]
    ∧ get_group_ids eQuoteNoDigits ≠ extract_group_ids eQuoteNoDigits.message_str := by
  decide

/-- C7 (amended): reference resolution falls back to the event own text
exactly when the quoted text is the empty string (in particular when there is
no quote); whenever the quoted text is non-empty, the result is the extraction
from the quoted text alone, even if that extraction is empty. -/
theorem get_group_ids_fallback (e : Event) :
    (refTextOf e = "" → get_group_ids e = extract_group_ids e.message_str)
    ∧ (refTextOf e ≠ "" → get_group_ids e = extract_group_ids (refTextOf e)) := by
  unfold get_group_ids
  exact ⟨fun h => by rw [if_pos h], fun h => by rw [if_neg h]⟩

/-- Witness for get_group_ids_fallback at a quote-free event. -/
theorem get_group_ids_fallback_witness :
    get_group_ids eAlice = extract_group_ids eAlice.message_str :=
  (get_group_ids_fallback eAlice).1 rfl

/-! ## Digit-run lemmas for the group-id scanner -/

theorem takeWhile_all_append {r rest : List Char}
    (hr : ∀ c ∈ r, Char.isDigit c = true)
    (hrest : ∀ d, rest.head? = some d → Char.isDigit d = false) :
    (r ++ rest).takeWhile Char.isDigit = r
    ∧ (r ++ rest).dropWhile Char.isDigit = rest := by
  induction r with
  | nil =>
    simp only [List.nil_append]
    cases rest with
    | nil => simp
    | cons d t =>
      have hd := hrest d rfl
      simp [List.takeWhile_cons, List.dropWhile_cons, hd]
  | cons c r ih =>
    have hc : Char.isDigit c = true := hr c (List.mem_cons_self _ _)
    have ih2 := ih (fun x hx => hr x (List.mem_cons_of_mem _ hx))
    simp [List.takeWhile_cons, List.dropWhile_cons, hc, ih2.1, ih2.2]

theorem takeWhile_mem_digit {l : List Char} {c : Char}
    (h : c ∈ l.takeWhile Char.isDigit) : Char.isDigit c = true := by
  induction l with
  | nil => simp at h
  | cons a l ih =>
    rw [List.takeWhile_cons] at h
    by_cases ha : Char.isDigit a = true
    · rw [if_pos ha] at h
      rcases List.mem_cons.mp h with rfl | h
      · exact ha
      · exact ih h
    · rw [if_neg ha] at h
      simp at h

theorem dropWhile_head_not_digit {l : List Char} {d : Char}
    (h : (l.dropWhile Char.isDigit).head? = some d) : Char.isDigit d = false := by
  induction l with
  | nil => simp at h
  | cons a l ih =>
    rw [List.dropWhile_cons] at h
    by_cases ha : Char.isDigit a = true
    · rw [if_pos ha] at h
      exact ih h
    · rw [if_neg ha, List.head?_cons] at h
      injection h with h
      cases hb : Char.isDigit a with
      | false => rw [← h]; exact hb
      | true => exact absurd hb ha

theorem take_append_le {α : Type} (n : Nat) (l1 l2 : List α) (h : n ≤ l1.length) :
    (l1 ++ l2).take n = l1.take n := by
  induction l1 generalizing n with
  | nil => simp [Nat.le_zero.mp h]
  | cons a l ih =>
    cases n with
    | zero => simp
    | succ n =>
      simp only [List.cons_append, List.take_succ_cons]
      rw [ih n (Nat.le_of_succ_le_succ h)]

theorem drop_append_le {α : Type} (n : Nat) (l1 l2 : List α) (h : n ≤ l1.length) :
    (l1 ++ l2).drop n = l1.drop n ++ l2 := by
  induction l1 generalizing n with
  | nil => simp [Nat.le_zero.mp h]
  | cons a l ih =>
    cases n with
    | zero => simp
    | succ n =>
      simp only [List.cons_append, List.drop_succ_cons]
      exact ih n (Nat.le_of_succ_le_succ h)

theorem findallAux_fuel_irrel (f1 : Nat) :
    ∀ (f2 : Nat) (l : List Char), l.length ≤ f1 → l.length ≤ f2 →
      findallAux f1 l = findallAux f2 l := by
  induction f1 with
  | zero =>
    intro f2 l h1 _
    have hnil : l = [] := List.eq_nil_of_length_eq_zero (Nat.le_zero.mp h1)
    subst hnil
    cases f2 <;> rfl
  | succ f1 ih =>
    intro f2 l h1 h2
    cases l with
    | nil => cases f2 <;> rfl
    | cons c cs =>
      cases f2 with
      | zero => simp at h2
      | succ f2 =>
        simp only [findallAux]
        by_cases hrun : 6 ≤ ((c :: cs).takeWhile Char.isDigit).length
        · rw [if_pos hrun, if_pos hrun]
          have hk : 6 ≤ min ((c :: cs).takeWhile Char.isDigit).length 10 :=
            le_min hrun (by omega)
          simp only [List.length_cons] at h1 h2
          congr 1
          apply ih
          · rw [List.length_drop]; simp only [List.length_cons]; omega
          · rw [List.length_drop]; simp only [List.length_cons]; omega
        · rw [if_neg hrun, if_neg hrun]
          simp only [List.length_cons] at h1 h2
          exact ih f2 cs (by omega) (by omega)


theorem findallAux_skip_run :
    ∀ (r : List Char), (∀ c ∈ r, Char.isDigit c = true) → r.length < 6 →
      ∀ (fuel : Nat) (rest : List Char),
        (∀ d, rest.head? = some d → Char.isDigit d = false) →
        (r ++ rest).length ≤ fuel →
        findallAux fuel (r ++ rest) = findall6to10 rest := by
  intro r
  induction r with
  | nil =>
    intro _ _ fuel rest _ hlen
    simp only [List.nil_append] at hlen ⊢
    exact findallAux_fuel_irrel fuel rest.length rest hlen (le_refl _)
  | cons c r ih =>
    intro hdig hshort fuel rest hnd hlen
    cases fuel with
    | zero => simp at hlen
    | succ fuel =>
      have htw := @takeWhile_all_append (c :: r) rest hdig hnd
      simp only [List.cons_append] at htw
      simp only [List.cons_append, findallAux, List.append_eq]
      rw [htw.1]
      rw [if_neg (by simp only [List.length_cons] at hshort ⊢; omega)]
      refine ih (fun x hx => hdig x (List.mem_cons_of_mem _ hx))
        (by simp only [List.length_cons] at hshort; omega)
        fuel rest hnd ?_
      simp only [List.cons_append, List.length_cons, List.length_append] at hlen ⊢
      omega

theorem findallAux_eq_runs :
    ∀ (fuel : Nat) (l : List Char), l.length ≤ fuel →
      findallAux fuel l = (maxDigitRuns l).flatMap greedyChunks := by
  intro fuel
  induction fuel with
  | zero =>
    intro l hl
    have hnil : l = [] := List.eq_nil_of_length_eq_zero (Nat.le_zero.mp hl)
    subst hnil
    simp [findallAux, maxDigitRuns]
  | succ fuel ih =>
    intro l hl
    cases l with
    | nil => simp [findallAux, maxDigitRuns]
    | cons c cs =>
      simp only [List.length_cons] at hl
      by_cases hc : Char.isDigit c = true
      case neg =>
        have hrun : (c :: cs).takeWhile Char.isDigit = [] := by
          simp [List.takeWhile_cons, hc]
        have h1 : findallAux (fuel + 1) (c :: cs) = findallAux fuel cs := by
          simp [findallAux, hrun]
        rw [h1, ih cs (by omega)]
        simp [maxDigitRuns, hc]
      case pos =>
        set run := (c :: cs).takeWhile Char.isDigit with hrun_def
        set rest := (c :: cs).dropWhile Char.isDigit with hrest_def
        have hsplit : run ++ rest = c :: cs := List.takeWhile_append_dropWhile _ _
        have hall : ∀ x ∈ run, Char.isDigit x = true := fun x hx => takeWhile_mem_digit hx
        have hnd : ∀ d, rest.head? = some d → Char.isDigit d = false :=
          fun d hd => dropWhile_head_not_digit hd
        have hrest_le : rest.length ≤ cs.length := by
          rw [hrest_def, List.dropWhile_cons, if_pos hc]
          exact (List.dropWhile_sublist Char.isDigit).length_le
        have hruns : maxDigitRuns (c :: cs) = run :: maxDigitRuns rest := by
          rw [hrun_def, hrest_def]
          simp [maxDigitRuns, hc]
        rw [hruns, List.flatMap_cons]
        by_cases hlen6 : 6 ≤ run.length
        case neg =>
          have hchunks : greedyChunks run = [] := by
            rw [greedyChunks, if_neg hlen6]
          have hcs : cs = run.tail ++ rest := by
            rw [hrun_def, List.takeWhile_cons, if_pos hc] at hsplit ⊢
            have h2 := congrArg List.tail hsplit
            simpa using h2.symm
          have h1 : findallAux (fuel + 1) (c :: cs) = findallAux fuel cs := by
            simp only [findallAux]
            rw [← hrun_def, if_neg hlen6]
          rw [h1, hcs]
          rw [findallAux_skip_run run.tail
            (fun x hx => hall x (List.mem_of_mem_tail hx))
            (by rw [List.length_tail]; omega)
            fuel rest hnd
            (by rw [← hcs]; omega)]
          rw [hchunks, List.nil_append]
          rw [show findall6to10 rest = findallAux fuel rest from
            findallAux_fuel_irrel rest.length fuel rest (le_refl _) (by omega)]
          exact ih rest (by omega)
        case pos =>
          have hk6 : 6 ≤ min run.length 10 := le_min hlen6 (by omega)
          have hklen : min run.length 10 ≤ run.length := Nat.min_le_left _ _
          have hlength : run.length + rest.length = cs.length + 1 := by
            have h2 := congrArg List.length hsplit
            simpa [List.length_append] using h2
          have htake : (c :: cs).take (min run.length 10) = run.take 10 := by
            rw [← hsplit, take_append_le _ _ _ hklen]
            by_cases h10 : run.length ≤ 10
            · rw [Nat.min_eq_left h10, List.take_length, List.take_of_length_le h10]
            · rw [Nat.min_eq_right (by omega)]
          have hdrop : (c :: cs).drop (min run.length 10) = run.drop 10 ++ rest := by
            rw [← hsplit, drop_append_le _ _ _ hklen]
            by_cases h10 : run.length ≤ 10
            · rw [Nat.min_eq_left h10, List.drop_length, List.drop_of_length_le h10]
            · rw [Nat.min_eq_right (by omega)]
          have h1 : findallAux (fuel + 1) (c :: cs)
              = run.take 10 :: findallAux fuel (run.drop 10 ++ rest) := by
            simp only [findallAux]
            rw [← hrun_def, if_pos hlen6, htake, hdrop]
          rw [h1]
          rw [greedyChunks, if_pos hlen6, List.cons_append]
          congr 1
          cases hr2 : run.drop 10 with
          | nil =>
            simp only [List.nil_append]
            rw [show greedyChunks ([] : List Char) = [] from by
              rw [greedyChunks, if_neg (by simp)], List.nil_append]
            exact ih rest (by omega)
          | cons d t =>
            have hdt : run.drop 10 = d :: t := hr2
            have hr2dig : ∀ x ∈ d :: t, Char.isDigit x = true := by
              rw [← hdt]
              exact fun x hx => hall x (List.mem_of_mem_drop hx)
            have hlen10 : 10 < run.length := by
              by_contra hcon
              have hnil : run.drop 10 = [] := List.drop_of_length_le (by omega)
              rw [hdt] at hnil
              exact absurd hnil (by simp)
            have hlen2 : ((d :: t) ++ rest).length ≤ fuel := by
              rw [← hdt]
              simp only [List.length_append, List.length_drop]
              omega
            rw [ih ((d :: t) ++ rest) hlen2]
            have htw2 := @takeWhile_all_append (d :: t) rest hr2dig hnd
            have hd : Char.isDigit d = true := hr2dig d (List.mem_cons_self _ _)
            have hruns2 : maxDigitRuns ((d :: t) ++ rest)
                = (d :: t) :: maxDigitRuns rest := by
              simp only [List.cons_append] at htw2 ⊢
              simp only [maxDigitRuns, hd, dite_true]
              rw [htw2.1, htw2.2]
            rw [hruns2, List.flatMap_cons]

/-! ## Claim C8 -/

/-- C8 counterexample: an 11-digit maximal run yields the group id formed by
its first 10 digits — not nothing, as the claim states. -/
theorem extract_long_run_cex :
    extract_group_ids "a12345678901b" = [1234567890]
    ∧ extract_group_ids "a12345678901b" ≠ [] := by decide

/-- C8 (amended): extract_group_ids returns, for every input, exactly the
greedy 6-to-10-digit chunks of each maximal digit run, left to right with
duplicates retained: a maximal run of 6 to 10 digits yields itself, a longer
run yields its first 10 digits and then further chunks of up to 10 while at
least 6 digits remain, shorter runs and text without digits yield nothing
(and never an error). -/
theorem extract_group_ids_greedy (text : String) :
    extract_group_ids text
      = ((maxDigitRuns text.data).flatMap greedyChunks).map digitsToNat := by
  unfold extract_group_ids findall6to10
  rw [findallAux_eq_runs text.data.length text.data (le_refl _)]

/-! ## Image-url lemmas for normalization -/

theorem cqFindallAux_ne_empty :
    ∀ (fuel : Nat) (l : List Char) (u : String), u ∈ cqFindallAux fuel l → u ≠ "" := by
  intro fuel
  induction fuel with
  | zero =>
    intro l u hu
    simp [cqFindallAux] at hu
  | succ fuel ih =>
    intro l u hu
    cases l with
    | nil => simp [cqFindallAux] at hu
    | cons c cs =>
      simp only [cqFindallAux] at hu
      split at hu
      · split at hu
        · exact ih cs u hu
        · split at hu
          · exact ih cs u hu
          · rcases List.mem_cons.mp hu with rfl | hu
            · rename_i hcap
              intro hcon
              have hdata : List.takeWhile (fun ch => ch != ']')
                  (List.drop cqHead.length (c :: cs)) = [] := congrArg String.data hcon
              rw [hdata] at hcap
              simp at hcap
            · exact ih _ u hu
      · exact ih cs u hu

theorem extract_image_urls_ne_empty {x : RawContent} {u : String}
    (hu : u ∈ extract_image_urls x) : u ≠ "" := by
  cases x with
  | str s => exact cqFindallAux_ne_empty _ _ u hu
  | list l =>
    rcases List.mem_filterMap.mp hu with ⟨seg, _, hseg⟩
    cases seg with
    | obj r s => simp [imgUrlOf] at hseg
    | dict ty d =>
      simp only [imgUrlOf] at hseg
      split at hseg
      · split at hseg
        · split at hseg
          · exact absurd hseg (by simp)
          · rename_i u' hne
            injection hseg with hseg
            rw [← hseg]
            exact hne
        · exact absurd hseg (by simp)
      · exact absurd hseg (by simp)

theorem extract_image_urls_map_imageSeg (urls : List String)
    (h : ∀ u ∈ urls, u ≠ "") :
    extract_image_urls (RawContent.list (urls.map imageSeg)) = urls := by
  induction urls with
  | nil => rfl
  | cons u us ih =>
    have hu : u ≠ "" := h u (List.mem_cons_self _ _)
    have ih2 := ih (fun x hx => h x (List.mem_cons_of_mem _ hx))
    show (imageSeg u :: us.map imageSeg).filterMap imgUrlOf = u :: us
    have himg : imgUrlOf (imageSeg u) = some u := by
      simp [imgUrlOf, imageSeg, pyStrOr, strTruthy, hu]
    rw [List.filterMap_cons_some himg]
    show u :: extract_image_urls (RawContent.list (us.map imageSeg)) = u :: us
    rw [ih2]

/-! ## Claim C9 -/

/-- C9 counterexample: normalization is not idempotent.  A string bearing a CQ
image code normalizes to a text segment (still holding the raw CQ code)
followed by the image segment; normalizing that canonical sequence again drops
the text segment, leaving only the image. -/
theorem normalize_not_idempotent_cex :
    normalize_content (RawContent.str "[CQ:image,file=u] hi")
      = RawContent.list [textSeg "[CQ:image,file=u] hi", imageSeg "u"]
    ∧ normalize_content (normalize_content (RawContent.str "[CQ:image,file=u] hi"))
      = RawContent.list [imageSeg "u"]
    ∧ normalize_content (normalize_content (RawContent.str "[CQ:image,file=u] hi"))
      ≠ normalize_content (RawContent.str "[CQ:image,file=u] hi") := by decide

/-- C9 (amended): normalization is idempotent on structured segment-list
content, and on string content that carries no embedded CQ image code; it is
not idempotent on strings with embedded image codes, where the second pass
drops the text segment. -/
theorem normalize_idempotent_cases :
    (∀ l : List Segment,
        normalize_content (normalize_content (RawContent.list l))
          = normalize_content (RawContent.list l))
    ∧ (∀ s : String, cqFindall s.data = [] →
        normalize_content (normalize_content (RawContent.str s))
          = normalize_content (RawContent.str s)) := by
  constructor
  · intro l
    by_cases h : (extract_image_urls (RawContent.list l)).isEmpty = true
    · have hid : normalize_content (RawContent.list l) = RawContent.list l := by
        unfold normalize_content
        rw [if_pos h]
      rw [hid, hid]
    · have h1 : normalize_content (RawContent.list l)
          = RawContent.list ((extract_image_urls (RawContent.list l)).map imageSeg) := by
        unfold normalize_content
        rw [if_neg h]
        simp
      have hurls : extract_image_urls (RawContent.list
            ((extract_image_urls (RawContent.list l)).map imageSeg))
          = extract_image_urls (RawContent.list l) :=
        extract_image_urls_map_imageSeg _ (fun u hu => extract_image_urls_ne_empty hu)
      rw [h1]
      have h2 : normalize_content
            (RawContent.list ((extract_image_urls (RawContent.list l)).map imageSeg))
          = RawContent.list ((extract_image_urls (RawContent.list l)).map imageSeg) := by
        unfold normalize_content
        rw [hurls, if_neg h]
        simp
      rw [h2]
  · intro s hs
    have hid : normalize_content (RawContent.str s) = RawContent.str s := by
      unfold normalize_content
      simp only [extract_image_urls, hs]
      rfl
    rw [hid, hid]

/-- Witness for normalize_idempotent_cases: a one-segment list and a plain
string without CQ codes. -/
theorem normalize_idempotent_cases_witness :
    normalize_content (normalize_content (RawContent.list [textSeg "hi"]))
      = normalize_content (RawContent.list [textSeg "hi"])
    ∧ normalize_content (normalize_content (RawContent.str "hi"))
      = normalize_content (RawContent.str "hi") :=
  ⟨normalize_idempotent_cases.1 [textSeg "hi"],
   normalize_idempotent_cases.2 "hi" (by decide)⟩
